import Mathlib

/-!
Verification of `projectq/backends/_rigetti/_rigetti.py` (RigettiBackend).

The backend is shallowly embedded: the gate objects imported at the top of the
module become the constructors of `Gate`; a ProjectQ `Command` becomes the
structure `Command`; the mutable fields of the `RigettiBackend` object become
the structure `BackendState`.  The accumulated Quil text `self.quil`, which the
Python code only ever extends by `self.quil += "\n<line>"`, is modelled as the
list of its newline-separated instruction lines.  Python dictionaries
(`self._probabilities`, `counts`) are modelled as insertion-ordered association
lists with the update semantics of a Python `dict` (`dictInsert`).  Exceptions
become an error type `BackendError` threaded through `Except` (or, where the
mutated state at the moment of the raise matters, a `state x optional-error`
pair).  Floating-point probabilities are modelled as rationals.
-/

namespace Rigetti

/-- The gate objects imported by `_rigetti.py` from `projectq.ops`, as a tagged
variant.  Rotation-style gates carry the textual parameter that appears inside
the parentheses of their Python `str()` form.  `NOT`, `X`, ..., `Barrier` are
modelled as distinct constructors, mirroring the distinct imported names and
the spec's tagged-variant data model. -/
inductive Gate where
  | NOT
  | X
  | Y
  | Z
  | T
  | Tdag
  | S
  | Sdag
  | H
  | Rx (angle : String)
  | Ry (angle : String)
  | Rz (angle : String)
  | Ph (angle : String)
  | Measure
  | Allocate
  | Deallocate
  | Barrier
  | Flush
  deriving DecidableEq

/-- A qubit reference: only its integer id is relevant to the backend. -/
structure Qubit where
  id : Nat
  deriving DecidableEq

/-- Command tags.  `_store` searches the tag list for a `LogicalQubitIDTag`. -/
inductive Tag where
  | LogicalQubitIDTag (logical_qubit_id : Nat)
  | otherTag (payload : Nat)
  deriving DecidableEq

/-- A ProjectQ command as seen by the backend: a gate, a tuple of qubit
registers, control qubits, and tags. -/
structure Command where
  gate : Gate
  qubits : List (List Qubit)
  control_qubits : List Qubit
  tags : List Tag
  deriving DecidableEq

/-- `projectq.meta.get_control_count`: the number of control qubits. -/
def get_control_count (cmd : Command) : Nat :=
  cmd.control_qubits.length

/-- Is the gate one of the parametrized rotation/phase classes
(`isinstance(g, (Rx, Ry, Rz, Ph))`)? -/
def isRotationGate : Gate → Bool
  | .Rx _ | .Ry _ | .Rz _ | .Ph _ => true
  | _ => false

/-- `RigettiBackend.is_available`, transcribed branch by branch from the
source (lines 87-108 of `_rigetti.py`). -/
def is_available (cmd : Command) : Bool :=
  let g := cmd.gate
  if g = .Barrier then false
  else if g = .NOT ∧ get_control_count cmd ≤ 2 then true
  else if g ∈ [Gate.T, Gate.Tdag, Gate.S, Gate.Sdag, Gate.H, Gate.X, Gate.Y, Gate.Z] then true
  else if isRotationGate g then true
  else if g ∈ [Gate.Measure, Gate.Allocate, Gate.Deallocate] then true
  else false

/-- The availability predicate exactly as the specification words it: the gate
set `{X,Y,Z,T,Tdag,S,Sdag}`, the rotation/phase gates, allocate / deallocate /
measure, or a NOT with at most two controls; Barrier never.  (Note: the spec's
enumeration does not contain `H`.) -/
def spec_available (cmd : Command) : Bool :=
  (cmd.gate ∈ [Gate.X, Gate.Y, Gate.Z, Gate.T, Gate.Tdag, Gate.S, Gate.Sdag]
    || isRotationGate cmd.gate
    || cmd.gate ∈ [Gate.Allocate, Gate.Deallocate, Gate.Measure]
    || (cmd.gate = Gate.NOT && get_control_count cmd ≤ 2))
  && !(cmd.gate = Gate.Barrier)

/-- Errors raised by the backend.  Python raises `AssertionError` for the bare
asserts in `_store`; the assert that a measure command carries a
`LogicalQubitIDTag` is the one the spec names `MissingLogicalTagError`, so it
gets its own constructor.  `keyError` is a bare dictionary-lookup miss,
`unknownQubit` the `RuntimeError` of `_logical_to_physical`, `noData` the
`RuntimeError` of `get_probabilities` on an empty table, `valueError` the
`max()` of an empty allocation set, and `runFailed` the
`Exception("Failed to run the circuit. Aborting.")` re-raised from a
`TypeError` in `send`/`retrieve`. -/
inductive BackendError where
  | assertionError
  | missingLogicalTag
  | indexError
  | keyError (id : Nat)
  | unknownQubit (id : Nat)
  | noData
  | valueError
  | runFailed
  deriving DecidableEq

/-- The mutable fields of the `RigettiBackend` object.  `quil` is the list of
newline-separated instruction lines of `self.quil`; `probabilities` is the
insertion-ordered `self._probabilities` dictionary; `allocated_qubits` is
`self._allocated_qubits` as an insertion-ordered duplicate-free list. -/
structure BackendState where
  clear : Bool
  probabilities : List (String × ℚ)
  quil : List String
  measured_ids : List Nat
  allocated_qubits : List Nat
  deriving DecidableEq

/-- Lookup in an insertion-ordered association list (first match). -/
def dictLookup {β : Type} (d : List (String × β)) (k : String) : Option β :=
  (d.find? (fun p => decide (p.1 = k))).map (fun p => p.2)

/-- Update semantics of a Python `dict`: overwrite the entry if the key is
present (keeping its position), otherwise append at the end. -/
def dictInsert {β : Type} (d : List (String × β)) (k : String) (v : β) :
    List (String × β) :=
  if d.any (fun p => decide (p.1 = k)) then
    d.map (fun p => if p.1 = k then (k, v) else p)
  else d ++ [(k, v)]

/-- Python `set.add` on the insertion-ordered list model. -/
def setAdd (l : List Nat) (x : Nat) : List Nat :=
  if x ∈ l then l else l ++ [x]

/-- The first `LogicalQubitIDTag` in a command's tag list (`_store`'s
`for t in cmd.tags` search). -/
def findLogicalId : List Tag → Option Nat
  | [] => none
  | .LogicalQubitIDTag n :: _ => some n
  | .otherTag _ :: ts => findLogicalId ts

/-- Modelled from the spec: `str(gate)` of the gate objects of `projectq.ops`
(that module is not under `src/`).  The canonical textual names are the gate
names, with the daggered gates spelled with a `^\dagger` suffix, rotation-style
gates carrying their parameter in parentheses, and `NOT` being an alias of the
`X` gate object. -/
def gateString : Gate → String
  | .NOT => "X"
  | .X => "X"
  | .Y => "Y"
  | .Z => "Z"
  | .T => "T"
  | .Tdag => "T^\\dagger"
  | .S => "S"
  | .Sdag => "S^\\dagger"
  | .H => "H"
  | .Rx a => "Rx(" ++ a ++ ")"
  | .Ry a => "Ry(" ++ a ++ ")"
  | .Rz a => "Rz(" ++ a ++ ")"
  | .Ph a => "Ph(" ++ a ++ ")"
  | .Measure => "Measure"
  | .Allocate => "Allocate"
  | .Deallocate => "Deallocate"
  | .Barrier => "Barrier"
  | .Flush => ""

/-- Python `str.upper()` on the ASCII strings involved. -/
def upperStr (s : String) : String :=
  String.mk (s.data.map Char.toUpper)

/-- Python `str.replace(pat, rep)`: replace every non-overlapping occurrence of
`pat`, scanning left to right (`pat` nonempty at every use site). -/
def replaceSub (pat rep : List Char) : List Char → List Char
  | [] => []
  | c :: cs =>
    if pat.isPrefixOf (c :: cs) then
      rep ++ replaceSub pat rep (cs.drop (pat.length - 1))
    else
      c :: replaceSub pat rep cs
termination_by l => l.length
decreasing_by
  · simp only [List.length_drop, List.length_cons]
    omega
  · simp only [List.length_cons]
    omega

/-- `str(gate).upper().replace('PH(', 'PHASE(')` — the instruction mnemonic of
the rotation branch of `_store` (line 162). -/
def rotationStr (g : Gate) : String :=
  String.mk (replaceSub "PH(".data "PHASE(".data (upperStr (gateString g)).data)

/-- `RigettiBackend._gate_names`, the static rename table.  Its third entry is
keyed by `str(Ph)` of the *class* object (a `<class ...>` string, here
abbreviated), which never equals the `str()` of a gate instance, so that entry
is dead. -/
def _gate_names : List (String × String) :=
  [(gateString .Tdag, "DAGGER T"),
   (gateString .Sdag, "DAGGER S"),
   ("<class Ph>", "PHASE")]

/-- The instruction mnemonic of the final branch of `_store` (lines 171-174):
the rename-table entry when present, the upper-cased `str(gate)` otherwise. -/
def elseGateStr (g : Gate) : String :=
  match dictLookup _gate_names (gateString g) with
  | some s => s
  | none => upperStr (gateString g)

/-- The lazy clearing block at the top of `_store` (lines 124-128): when the
clear flag is set, empty the probability table, the program text and the
allocated set, and drop the flag. -/
def clearIfNeeded (st : BackendState) : BackendState :=
  if st.clear then
    { st with probabilities := [], clear := false, quil := [], allocated_qubits := [] }
  else st

/-- The body of `RigettiBackend._store` after the clearing block (lines
130-182), transcribed branch by branch.  Each `self.quil += "\n<line>"`
becomes appending `<line>` to the line list; failed asserts and out-of-range
indexing become errors. -/
def storeBody (cmd : Command) (st : BackendState) : Except BackendError BackendState :=
  let gate := cmd.gate
  if gate = .Allocate then
    match cmd.qubits with
    | (q :: _) :: _ => .ok { st with allocated_qubits := setAdd st.allocated_qubits q.id }
    | _ => .error .indexError
  else if gate = .Deallocate then
    .ok st
  else if gate = .Measure then
    match cmd.qubits with
    | [[_q]] =>
      match findLogicalId cmd.tags with
      | some logical_id => .ok { st with measured_ids := st.measured_ids ++ [logical_id] }
      | none => .error .missingLogicalTag
    | _ => .error .assertionError
  else if gate = .NOT ∧ get_control_count cmd = 1 then
    match cmd.control_qubits, cmd.qubits with
    | [ctrl], (q :: _) :: _ =>
        .ok { st with quil :=
          st.quil ++ ["CNOT " ++ toString ctrl.id ++ " " ++ toString q.id] }
    | _, _ => .error .indexError
  else if gate = .NOT ∧ get_control_count cmd = 2 then
    match cmd.control_qubits, cmd.qubits with
    | [c1, c2], (q :: _) :: _ =>
        .ok { st with quil :=
          st.quil ++ ["CCNOT " ++ toString c1.id ++ " " ++ toString c2.id ++ " "
            ++ toString q.id] }
    | _, _ => .error .indexError
  else if isRotationGate gate then
    if 2 ≤ get_control_count cmd then .error .assertionError
    else
      match cmd.qubits with
      | (q :: _) :: _ =>
        let gate_str := rotationStr gate
        match cmd.control_qubits with
        | [ctrl] => .ok { st with quil :=
            st.quil ++ ["CONTROLLED " ++ gate_str ++ " " ++ toString ctrl.id ++ " "
              ++ toString q.id] }
        | _ => .ok { st with quil := st.quil ++ [gate_str ++ " " ++ toString q.id] }
      | _ => .error .indexError
  else
    if 2 ≤ get_control_count cmd then .error .assertionError
    else
      let gate_str := elseGateStr gate
      match cmd.qubits with
      | (q :: _) :: _ =>
        match cmd.control_qubits with
        | [ctrl] => .ok { st with quil :=
            st.quil ++ ["CONTROLLED " ++ gate_str ++ " " ++ toString ctrl.id ++ " "
              ++ toString q.id] }
        | _ => .ok { st with quil := st.quil ++ [gate_str ++ " " ++ toString q.id] }
      | _ => .error .indexError

/-- `RigettiBackend._store` (lines 115-182): the lazy clearing block followed
by the translation body. -/
def _store (cmd : Command) (st₀ : BackendState) : Except BackendError BackendState :=
  storeBody cmd (clearIfNeeded st₀)

/-- A line of the accumulated program is a measurement instruction when its
text begins with `MEASURE`. -/
def isMeasureLine (l : String) : Bool :=
  "MEASURE".data.isPrefixOf l.data

/-- The measurement instruction `_run` appends for physical location `loc`
(line 251: `"\nMEASURE {} [{}]".format(qb_loc, qb_loc)`). -/
def measureLine (loc : Nat) : String :=
  "MEASURE " ++ toString loc ++ " [" ++ toString loc ++ "]"

/-- Lookup in the externally owned logical-to-physical mapping
(`self.main_engine.mapper.current_mapping`), modelled as an association list. -/
def mapLookup (mapping : List (Nat × Nat)) (k : Nat) : Option Nat :=
  (mapping.find? (fun p => decide (p.1 = k))).map (fun p => p.2)

/-- `RigettiBackend._logical_to_physical` (lines 184-199): resolver that fails
with the hint-carrying `RuntimeError` (spec: `UnknownQubitError`) when the
logical id is absent from the current mapping. -/
def _logical_to_physical (mapping : List (Nat × Nat)) (qb_id : Nat) :
    Except BackendError Nat :=
  match mapLookup mapping qb_id with
  | none => .error (.unknownQubit qb_id)
  | some pos => .ok pos

/-- The measurement-appending loop at the start of `_run` (lines 249-251).
Note the source reads `self.main_engine.mapper.current_mapping[measured_id]`
directly — a bare dictionary lookup raising `KeyError` on a miss — rather than
calling `_logical_to_physical`.  The returned pair is the state at the moment
the loop finishes or raises, together with the raised error if any. -/
def appendMeasures (mapping : List (Nat × Nat)) :
    List Nat → BackendState → BackendState × Option BackendError
  | [], st => (st, none)
  | id :: rest, st =>
    match mapLookup mapping id with
    | none => (st, some (.keyError id))
    | some loc =>
      appendMeasures mapping rest { st with quil := st.quil ++ [measureLine loc] }

/-- The decode-and-sample loop of `_run` (lines 282-298) over the decoded
histogram `counts`, in its insertion order: per state, the probability is
`count / num_runs`; the state string is reversed; the cumulative mass `p_sum`
grows; the first state whose cumulative mass reaches the single random draw
`P` while `measured` is still empty becomes the measured outcome; and the
reversed state is written into the probability dictionary.  Returns the final
probability dictionary and the measured outcome. -/
def processCounts (num_runs : Nat) (P : ℚ) :
    List (String × Nat) → ℚ → String → List (String × ℚ) →
      List (String × ℚ) × String
  | [], _, measured, probs => (probs, measured)
  | (state, cnt) :: rest, p_sum, measured, probs =>
    let probability : ℚ := (cnt : ℚ) / (num_runs : ℚ)
    let state' := String.mk state.data.reverse
    let p_sum' := p_sum + probability
    let measured' := if P ≤ p_sum' ∧ measured = "" then state' else measured
    processCounts num_runs P rest p_sum' measured' (dictInsert probs state' probability)

/-- Python `int(c)` on a single character: its digit value, `ValueError`
otherwise. -/
def charToInt (c : Char) : Except BackendError Nat :=
  if c.isDigit then .ok (c.toNat - '0'.toNat) else .error .valueError

/-- The measurement-registration loop of `_run` (lines 304-308): for each
measured logical id, resolve the physical location via `_logical_to_physical`
and deliver `int(measured[location])` to
`self.main_engine.set_measurement_result`, modelled as the returned list of
`(logical id, bit)` pairs in delivery order. -/
def registerResults (mapping : List (Nat × Nat)) (measured : String) :
    List Nat → Except BackendError (List (Nat × Nat))
  | [] => .ok []
  | id :: rest =>
    match _logical_to_physical mapping id with
    | .error e => .error e
    | .ok location =>
      match measured.data.get? location with
      | none => .error .indexError
      | some c =>
        match charToInt c with
        | .error e => .error e
        | .ok bit =>
          match registerResults mapping measured rest with
          | .error e => .error e
          | .ok tail => .ok ((id, bit) :: tail)

/-- `RigettiBackend._reset` (lines 110-113): sets the clear flag and empties
the measured-id list (the other accumulator fields are cleared lazily by the
next `_store`). -/
def resetState (st : BackendState) : BackendState :=
  { st with clear := true, measured_ids := [] }

/-- `RigettiBackend._run` (lines 239-311).  The remote interaction is
parametrized: `send_result` is `none` when `send`/`retrieve` raises the
`TypeError` that `_run` converts into `Exception("Failed to run ...")`, and
`some counts` is the decoded histogram (bitstring, count) in decode insertion
order otherwise; `P` is the single `random.random()` draw.  Returns the state
at the moment `_run` returns or raises, the `(logical id, bit)` pairs
delivered to the measurement-result sink, and the raised error if any. -/
def run (mapping : List (Nat × Nat)) (send_result : Option (List (String × Nat)))
    (num_runs : Nat) (P : ℚ) (st : BackendState) :
    BackendState × List (Nat × Nat) × Option BackendError :=
  if st.quil = [] then (st, [], none)
  else
    match appendMeasures mapping st.measured_ids st with
    | (st1, some e) => (st1, [], some e)
    | (st1, none) =>
      if st1.allocated_qubits = [] then (st1, [], some .valueError)
      else
        match send_result with
        | none => (st1, [], some .runFailed)
        | some counts =>
          let pm := processCounts num_runs P counts 0 "" st1.probabilities
          let st2 := { st1 with probabilities := pm.1 }
          match registerResults mapping pm.2 st2.measured_ids with
          | .error e => (st2, [], some e)
          | .ok results => (resetState st2, results, none)

/-- `receive` on a flush command (lines 321-326): `self._run()` followed by
`self._reset()`; when `_run` raises, the exception propagates and the
`_reset()` call in `receive` is skipped. -/
def receiveFlush (mapping : List (Nat × Nat)) (send_result : Option (List (String × Nat)))
    (num_runs : Nat) (P : ℚ) (st : BackendState) :
    BackendState × List (Nat × Nat) × Option BackendError :=
  match run mapping send_result num_runs P st with
  | (st', res, none) => (resetState st', res, none)
  | (st', res, some e) => (st', res, some e)

/-- `receive` over a list of non-flush commands: `_store` each in order. -/
def storeAll : List Command → BackendState → Except BackendError BackendState
  | [], st => .ok st
  | cmd :: rest, st =>
    match _store cmd st with
    | .error e => .error e
    | .ok st' => storeAll rest st'

/-- One iteration of the `get_probabilities` loop body (lines 230-233): the
`mapped_state` string for one stored state, indexing the state string at the
resolved physical position of each register qubit. -/
def projectState (mapping : List (Nat × Nat)) (qureg : List Qubit) (state : String) :
    Except BackendError String := do
  let chars ← qureg.mapM (fun q => do
    let pos ← _logical_to_physical mapping q.id
    match state.data.get? pos with
    | none => .error .indexError
    | some c => .ok c)
  .ok (String.mk chars)

/-- The `for state in self._probabilities` loop of `get_probabilities`,
upserting `probability_dict[mapped_state] = probability` per stored state in
insertion order. -/
def buildDict (mapping : List (Nat × Nat)) (qureg : List Qubit) :
    List (String × ℚ) → List (String × ℚ) → Except BackendError (List (String × ℚ))
  | acc, [] => .ok acc
  | acc, (state, prob) :: rest =>
    match projectState mapping qureg state with
    | .error e => .error e
    | .ok key => buildDict mapping qureg (dictInsert acc key prob) rest

/-- `RigettiBackend.get_probabilities` (lines 201-237): raise the no-data
`RuntimeError` when the stored table is empty, otherwise re-project every
stored state onto the supplied register order. -/
def get_probabilities (probs : List (String × ℚ)) (mapping : List (Nat × Nat))
    (qureg : List Qubit) : Except BackendError (List (String × ℚ)) :=
  if probs.length = 0 then .error .noData
  else buildDict mapping qureg [] probs

/-- The specification's description of outcome sampling: walk the histogram
states in insertion order accumulating `count / num_runs`; the first state
whose cumulative mass reaches or exceeds the draw `P` is the outcome,
reported in reversed bit order. -/
def firstCrossing (num_runs : Nat) (P : ℚ) :
    List (String × Nat) → ℚ → Option String
  | [], _ => none
  | (state, cnt) :: rest, acc =>
    let acc' := acc + (cnt : ℚ) / (num_runs : ℚ)
    if P ≤ acc' then some (String.mk state.data.reverse)
    else firstCrossing num_runs P rest acc'

/-- The projection of every stored state of a probability table onto a
register, when every projection succeeds. -/
def projections (mapping : List (Nat × Nat)) (qureg : List Qubit) :
    List (String × ℚ) → Except BackendError (List (String × ℚ))
  | [] => .ok []
  | (state, prob) :: rest =>
    match projectState mapping qureg state with
    | .error e => .error e
    | .ok key =>
      match projections mapping qureg rest with
      | .error e => .error e
      | .ok tail => .ok ((key, prob) :: tail)

/-- The sum of the values of a probability dictionary. -/
def valuesSum (d : List (String × ℚ)) : ℚ :=
  (d.map (fun p => p.2)).sum

/-- The bit the registration loop delivers for logical id `id`:
`int(measured[location])` at the resolved location (with vacuous defaults that
never fire on the successful path). -/
def bitAt (mapping : List (Nat × Nat)) (measured : String) (id : Nat) : Nat :=
  ((measured.data.get? ((mapLookup mapping id).getD 0)).getD '0').toNat - '0'.toNat

/-- The histogram of the spec's C3 round-trip scenario:
`{"00111": 396, "00101": 27, "00000": 601}` in decoder insertion order. -/
def countsC3 : List (String × Nat) :=
  [("00111", 396), ("00101", 27), ("00000", 601)]

/-- The probability table `_run` stores for `countsC3` over 1024 shots: every
bitstring reversed, each with probability `count / 1024`. -/
def probsC3 : List (String × ℚ) :=
  [("11100", ((396 : ℕ) : ℚ) / ((1024 : ℕ) : ℚ)),
   ("10100", ((27 : ℕ) : ℚ) / ((1024 : ℕ) : ℚ)),
   ("00000", ((601 : ℕ) : ℚ) / ((1024 : ℕ) : ℚ))]

/-- The C3 scenario's logical-to-physical mapping: the measured qubits are
mapped 1:1 to physical positions 0, 1, 2. -/
def mapC3 : List (Nat × Nat) :=
  [(0, 0), (1, 1), (2, 2)]

end Rigetti

namespace Rigetti

/-- C1 counterexample: an uncontrolled `H` command.  The code's availability
tuple (line 102) contains `H`, so `is_available` returns `true`, while the
spec's enumerated gate set omits `H` and therefore demands `false`. -/
theorem c1_available_h_counterexample :
    is_available ⟨Gate.H, [[⟨0⟩]], [], []⟩ = true ∧
      spec_available ⟨Gate.H, [[⟨0⟩]], [], []⟩ = false := by
  constructor <;> rfl

/-- C1 (amended): `is_available` returns `true` precisely when the gate is one
of `{X, Y, Z, T, Tdag, S, Sdag, H}` (the code's tuple includes `H`), a
rotation/phase gate, `Allocate`, `Deallocate` or `Measure`, or a `NOT` with at
most 2 controls; for `Barrier` it always returns `false` (no gate of the
enumeration is `Barrier`). -/
theorem c1_is_available_iff (cmd : Command) :
    is_available cmd = true ↔
      (cmd.gate ∈ [Gate.X, Gate.Y, Gate.Z, Gate.T, Gate.Tdag, Gate.S, Gate.Sdag, Gate.H]
        ∨ isRotationGate cmd.gate = true
        ∨ cmd.gate ∈ [Gate.Allocate, Gate.Deallocate, Gate.Measure]
        ∨ (cmd.gate = Gate.NOT ∧ get_control_count cmd ≤ 2)) := by
  cases cmd with
  | mk g qs cs ts =>
    cases g <;>
      simp [is_available, isRotationGate, get_control_count]

lemma isMeasureLine_false_of_head (l : String) (c : Char)
    (h : l.data.head? = some c) (hc : c ≠ 'M') : isMeasureLine l = false := by
  unfold isMeasureLine
  cases hd : l.data with
  | nil => rw [hd] at h; simp at h
  | cons c' cs =>
    rw [hd] at h
    simp only [List.head?_cons, Option.some.injEq] at h
    subst h
    rw [Bool.eq_false_iff]
    intro hpre
    rw [List.isPrefixOf_iff_prefix] at hpre
    rw [show "MEASURE".data = 'M' :: "EASURE".data from rfl] at hpre
    rw [List.cons_prefix_cons] at hpre
    exact hc hpre.1.symm

lemma isMeasureLine_measureLine (loc : Nat) : isMeasureLine (measureLine loc) = true := by
  unfold isMeasureLine measureLine
  rw [List.isPrefixOf_iff_prefix]
  have h1 : "MEASURE".data <+: "MEASURE ".data := ⟨[' '], rfl⟩
  have h2 : ("MEASURE " ++ toString loc ++ " [" ++ toString loc ++ "]").data
      = "MEASURE ".data ++ ((toString loc).data ++ (" [".data
          ++ ((toString loc).data ++ "]".data))) := by
    simp [String.data_append]
  rw [h2]
  exact h1.trans (List.prefix_append _ _)

lemma replaceSub_ph_head (l : List Char) :
    (replaceSub "PH(".data "PHASE(".data l).head? = l.head? ∨
      (replaceSub "PH(".data "PHASE(".data l).head? = some 'P' := by
  cases l with
  | nil => left; simp [replaceSub]
  | cons c cs =>
    rw [replaceSub]
    split
    · right; rfl
    · left; rfl

lemma upperStr_data (s : String) : (upperStr s).data = s.data.map Char.toUpper := rfl

lemma replaceSub_ph_head_ne_M (l : List Char) (c : Char) (hl : l.head? = some c)
    (hc : c ≠ 'M') :
    ∃ c', (replaceSub "PH(".data "PHASE(".data l).head? = some c' ∧ c' ≠ 'M' := by
  rcases replaceSub_ph_head l with h | h
  · exact ⟨c, h.trans hl, hc⟩
  · exact ⟨'P', h, by decide⟩

lemma rotationStr_head (g : Gate) (hg : isRotationGate g = true) :
    ∃ c, (rotationStr g).data.head? = some c ∧ c ≠ 'M' := by
  cases g <;> simp only [isRotationGate] at hg <;> try exact absurd hg (by decide)
  case Rx a =>
    have hd : (upperStr (gateString (.Rx a))).data
        = 'R' :: ('X' :: ('(' :: (a.data.map Char.toUpper ++ [')']))) := by
      simp [upperStr_data, gateString, String.data_append]
    exact replaceSub_ph_head_ne_M _ 'R' (by rw [hd]; rfl) (by decide)
  case Ry a =>
    have hd : (upperStr (gateString (.Ry a))).data
        = 'R' :: ('Y' :: ('(' :: (a.data.map Char.toUpper ++ [')']))) := by
      simp [upperStr_data, gateString, String.data_append]
    exact replaceSub_ph_head_ne_M _ 'R' (by rw [hd]; rfl) (by decide)
  case Rz a =>
    have hd : (upperStr (gateString (.Rz a))).data
        = 'R' :: ('Z' :: ('(' :: (a.data.map Char.toUpper ++ [')']))) := by
      simp [upperStr_data, gateString, String.data_append]
    exact replaceSub_ph_head_ne_M _ 'R' (by rw [hd]; rfl) (by decide)
  case Ph a =>
    have hd : (upperStr (gateString (.Ph a))).data
        = 'P' :: ('H' :: ('(' :: (a.data.map Char.toUpper ++ [')']))) := by
      simp [upperStr_data, gateString, String.data_append]
    exact replaceSub_ph_head_ne_M _ 'P' (by rw [hd]; rfl) (by decide)

end Rigetti

namespace Rigetti

lemma isMeasureLine_plain (gs pos : String) (hgs : gs.data.head? ≠ some 'M') :
    isMeasureLine (gs ++ " " ++ pos) = false := by
  cases hd : gs.data with
  | nil =>
    apply isMeasureLine_false_of_head _ ' ' ?_ (by decide)
    rw [String.data_append, String.data_append, hd]
    rfl
  | cons c cs =>
    apply isMeasureLine_false_of_head _ c ?_ ?_
    · rw [String.data_append, String.data_append, hd]
      rfl
    · intro hM
      subst hM
      exact hgs (by rw [hd]; rfl)

lemma elseGateStr_head (g : Gate) (hg : ¬isRotationGate g = true)
    (hm : ¬g = Gate.Measure) : (elseGateStr g).data.head? ≠ some 'M' := by
  cases g <;>
    first
      | decide
      | exact absurd rfl hm
      | simp [isRotationGate] at hg

lemma rotationStr_head_ne (g : Gate) (hg : isRotationGate g = true) :
    (rotationStr g).data.head? ≠ some 'M' := by
  obtain ⟨c, hc, hne⟩ := rotationStr_head g hg
  rw [hc]
  intro hM
  injection hM with h
  exact hne h

lemma storeBody_quil (cmd : Command) (st st' : BackendState)
    (h : storeBody cmd st = .ok st') :
    ∃ new, st'.quil = st.quil ++ new ∧ ∀ l ∈ new, isMeasureLine l = false := by
  simp only [storeBody] at h
  repeat' split at h
  all_goals try exact Except.noConfusion h
  all_goals cases h
  all_goals first
    | (refine ⟨[], ?_, ?_⟩
       · simp
       · simp)
    | (refine ⟨[_], rfl, ?_⟩
       intro l hl
       rw [List.mem_singleton] at hl
       subst hl
       first
         | exact isMeasureLine_false_of_head _ 'C' rfl (by decide)
         | (apply isMeasureLine_plain
            apply rotationStr_head_ne
            assumption)
         | (apply isMeasureLine_plain
            apply elseGateStr_head <;> assumption))


lemma store_noMeasure (cmd : Command) (st st' : BackendState)
    (h : _store cmd st = .ok st')
    (hq : ∀ l ∈ st.quil, isMeasureLine l = false) :
    ∀ l ∈ st'.quil, isMeasureLine l = false := by
  unfold _store at h
  obtain ⟨new, hnew, hmem⟩ := storeBody_quil _ _ _ h
  intro l hl
  rw [hnew] at hl
  rcases List.mem_append.mp hl with hl | hl
  · by_cases hc : st.clear
    · simp [clearIfNeeded, hc] at hl
    · simp only [clearIfNeeded, hc, if_false, Bool.false_eq_true] at hl
      exact hq l hl
  · exact hmem l hl

lemma storeAll_noMeasure (cmds : List Command) (st st' : BackendState)
    (h : storeAll cmds st = .ok st')
    (hq : ∀ l ∈ st.quil, isMeasureLine l = false) :
    ∀ l ∈ st'.quil, isMeasureLine l = false := by
  induction cmds generalizing st with
  | nil =>
    simp only [storeAll] at h
    cases h
    exact hq
  | cons cmd rest ih =>
    simp only [storeAll] at h
    split at h
    · exact Except.noConfusion h
    · rename_i st₁ hst₁
      exact ih st₁ h (store_noMeasure _ _ _ hst₁ hq)

lemma appendMeasures_quil (mapping : List (Nat × Nat)) (ids : List Nat)
    (st st' : BackendState)
    (h : appendMeasures mapping ids st = (st', none)) :
    ∃ B, st'.quil = st.quil ++ B ∧ ∀ l ∈ B, isMeasureLine l = true := by
  induction ids generalizing st with
  | nil =>
    simp only [appendMeasures] at h
    injection h with h1 h2
    subst h1
    exact ⟨[], by simp, by simp⟩
  | cons id rest ih =>
    simp only [appendMeasures] at h
    split at h
    · injection h with h1 h2
      exact Option.noConfusion h2
    · rename_i loc hloc
      obtain ⟨B, hB, hmem⟩ := ih _ h
      refine ⟨measureLine loc :: B, ?_, ?_⟩
      · rw [hB]
        simp
      · intro l hl
        rcases List.mem_cons.mp hl with hl | hl
        · subst hl
          exact isMeasureLine_measureLine loc
        · exact hmem l hl

/-- C2: starting from an empty accumulated program, after any sequence of
accepted (stored) operations followed by the measurement-appending step at the
flush boundary, the program splits into a block of non-measurement
instructions followed by a block of measurement instructions: every `MEASURE`
instruction occurs strictly after every non-measurement instruction,
regardless of the order in which the operations (including `Measure`)
arrived. -/
theorem c2_measurements_after_all_instructions (cmds : List Command)
    (mapping : List (Nat × Nat)) (st₀ st₁ st₂ : BackendState)
    (hq : st₀.quil = [])
    (hstore : storeAll cmds st₀ = .ok st₁)
    (happend : appendMeasures mapping st₁.measured_ids st₁ = (st₂, none)) :
    ∃ A B, st₂.quil = A ++ B ∧ (∀ l ∈ A, isMeasureLine l = false)
      ∧ ∀ l ∈ B, isMeasureLine l = true := by
  have h1 : ∀ l ∈ st₁.quil, isMeasureLine l = false :=
    storeAll_noMeasure cmds st₀ st₁ hstore (by rw [hq]; intro l hl; cases hl)
  obtain ⟨B, hB, hmem⟩ := appendMeasures_quil mapping _ st₁ st₂ happend
  exact ⟨st₁.quil, B, hB, h1, hmem⟩

/-- C2 witness: a concrete circuit (allocate two qubits, `H`, a tagged
measurement arriving *before* a CNOT) whose flushed program still has its
single measurement instruction last. -/
theorem c2_measurements_after_all_instructions_witness :
    ∃ A B, (⟨false, [], ["H 0", "CNOT 0 1", "MEASURE 0 [0]"], [0], [0, 1]⟩
        : BackendState).quil = A ++ B
      ∧ (∀ l ∈ A, isMeasureLine l = false) ∧ ∀ l ∈ B, isMeasureLine l = true :=
  c2_measurements_after_all_instructions
    [⟨.Allocate, [[⟨0⟩]], [], []⟩, ⟨.Allocate, [[⟨1⟩]], [], []⟩,
     ⟨.H, [[⟨0⟩]], [], []⟩, ⟨.Measure, [[⟨0⟩]], [], [.LogicalQubitIDTag 0]⟩,
     ⟨.NOT, [[⟨1⟩]], [⟨0⟩], []⟩]
    [(0, 0)] ⟨true, [], [], [], []⟩
    ⟨false, [], ["H 0", "CNOT 0 1"], [0], [0, 1]⟩
    ⟨false, [], ["H 0", "CNOT 0 1", "MEASURE 0 [0]"], [0], [0, 1]⟩
    rfl rfl (by decide)

/-- C7: calling `get_probabilities` when no run has completed (the stored
probability table is empty) raises the no-data `RuntimeError` for every
register argument and every mapping, before any per-qubit lookup is
attempted. -/
theorem c7_no_data_error (mapping : List (Nat × Nat)) (qureg : List Qubit) :
    get_probabilities [] mapping qureg = .error .noData := rfl

/-- C8: accepting a `Measure` operation fails — with an assertion error when
the command does not carry exactly one qubit, and with the missing-logical-tag
error when no `LogicalQubitIDTag` is attached — and a tagged single-qubit
`Measure` appends its (first) logical tag id to the measured-id list while
leaving the program text, and every other accumulator field, unchanged. -/
theorem c8_measure_store (cmd : Command) (st : BackendState)
    (hg : cmd.gate = Gate.Measure) (hc : st.clear = false) :
    (∀ q, cmd.qubits = [[q]] → findLogicalId cmd.tags = none →
        _store cmd st = .error .missingLogicalTag)
    ∧ ((¬∃ q, cmd.qubits = [[q]]) → _store cmd st = .error .assertionError)
    ∧ (∀ q lid, cmd.qubits = [[q]] → findLogicalId cmd.tags = some lid →
        _store cmd st = .ok { st with measured_ids := st.measured_ids ++ [lid] }) := by
  have hcl : clearIfNeeded st = st := by simp [clearIfNeeded, hc]
  refine ⟨?_, ?_, ?_⟩
  · intro q hq ht
    unfold _store
    rw [hcl]
    unfold storeBody
    simp [hg, hq, ht]
  · intro hq
    unfold _store
    rw [hcl]
    unfold storeBody
    simp only [hg]
    rcases hqs : cmd.qubits with _ | ⟨ql, qrest⟩
    · simp
    · rcases ql with _ | ⟨q1, qltail⟩
      · simp
      · rcases qltail with _ | ⟨q2, t⟩
        · rcases qrest with _ | ⟨l2, t2⟩
          · exact absurd ⟨q1, hqs⟩ hq
          · simp
        · simp
  · intro q lid hq ht
    unfold _store
    rw [hcl]
    unfold storeBody
    simp [hg, hq, ht]

/-- C8 witness: a single-qubit `Measure` carrying two logical tags (and a
stray other tag) is accepted, appending the first tag id, on a concrete
mid-circuit state. -/
theorem c8_measure_store_witness :
    _store ⟨.Measure, [[⟨3⟩]], [], [.otherTag 7, .LogicalQubitIDTag 4, .LogicalQubitIDTag 9]⟩
        ⟨false, [], ["X 0"], [0], [0]⟩
      = .ok ⟨false, [], ["X 0"], [0, 4], [0]⟩ :=
  (c8_measure_store
      ⟨.Measure, [[⟨3⟩]], [], [.otherTag 7, .LogicalQubitIDTag 4, .LogicalQubitIDTag 9]⟩
      ⟨false, [], ["X 0"], [0], [0]⟩ rfl rfl).2.2 ⟨3⟩ 4 rfl rfl

/-- C5 counterexample: with an empty current mapping and measured id 5, the
flush-boundary measurement-append step fails with the bare dictionary-lookup
`KeyError`, not with the resolver's `UnknownQubitError` — even though
`_logical_to_physical` on the same input would have produced the latter. -/
theorem c5_counterexample :
    (appendMeasures [] [5] ⟨false, [], ["X 0"], [5], [0]⟩).2 = some (.keyError 5)
    ∧ _logical_to_physical [] 5 = .error (.unknownQubit 5)
    ∧ BackendError.keyError 5 ≠ BackendError.unknownQubit 5 :=
  ⟨rfl, rfl, by decide⟩

lemma appendMeasures_miss (mapping : List (Nat × Nat)) (ids : List Nat) :
    ∀ st : BackendState, (∃ id ∈ ids, mapLookup mapping id = none) →
      ∃ id, mapLookup mapping id = none
        ∧ (appendMeasures mapping ids st).2 = some (.keyError id) := by
  induction ids with
  | nil =>
    intro st hmiss
    simp at hmiss
  | cons id rest ih =>
    intro st hmiss
    simp only [appendMeasures]
    cases hl : mapLookup mapping id with
    | none => exact ⟨id, hl, rfl⟩
    | some loc =>
      rcases hmiss with ⟨id', hmem, hl'⟩
      rcases List.mem_cons.mp hmem with hid | hid
      · subst hid
        rw [hl] at hl'
        exact Option.noConfusion hl'
      · exact ih _ ⟨id', hid, hl'⟩

/-- C5 (amended): at the flush boundary the measure-append resolves physical
ids with a bare mapping lookup, so when some measured id is absent the flush
fails with the bare `keyError` (on an absent id), not with the resolver's
`unknownQubit`; the resolver `_logical_to_physical`, which fails with
`unknownQubit` exactly on a lookup miss, is used when registering results and
in `get_probabilities`, not here. -/
theorem c5_amended (mapping : List (Nat × Nat)) (ids : List Nat) (st : BackendState)
    (hmiss : ∃ id ∈ ids, mapLookup mapping id = none) :
    (∃ id, mapLookup mapping id = none
      ∧ (appendMeasures mapping ids st).2 = some (.keyError id))
    ∧ ∀ id, mapLookup mapping id = none ↔
        _logical_to_physical mapping id = .error (.unknownQubit id) := by
  constructor
  · exact appendMeasures_miss mapping ids st hmiss
  · intro id
    unfold _logical_to_physical
    cases hl : mapLookup mapping id with
    | none => simp
    | some loc => simp

/-- C5 amended witness: measured id 5 absent from the empty mapping. -/
theorem c5_amended_witness :
    (∃ id, mapLookup [] id = none
      ∧ (appendMeasures [] [5] (⟨false, [], ["X 0"], [5], [0]⟩ : BackendState)).2
          = some (.keyError id))
    ∧ ∀ id, mapLookup [] id = none ↔
        _logical_to_physical [] id = .error (.unknownQubit id) :=
  c5_amended [] [5] ⟨false, [], ["X 0"], [5], [0]⟩ ⟨5, by decide, rfl⟩

/-- C9 counterexample: a failed submission (`send` raising the `TypeError`
that `_run` re-raises) leaves the accumulator un-reset: the clear flag is
still down and the measured-id list still populated — the state was not
discarded, contradicting "reset regardless of submission outcome". -/
theorem c9_counterexample :
    (receiveFlush [(0, 0)] none 1024 (1 / 2)
        ⟨false, [], ["X 0"], [0], [0]⟩).1.clear = false
    ∧ (receiveFlush [(0, 0)] none 1024 (1 / 2)
        ⟨false, [], ["X 0"], [0], [0]⟩).1.measured_ids = [0]
    ∧ (receiveFlush [(0, 0)] none 1024 (1 / 2)
        ⟨false, [], ["X 0"], [0], [0]⟩).2.2 = some .runFailed :=
  ⟨rfl, rfl, rfl⟩

/-- C9 (amended): the accumulator is consumed and reset exactly on the flushes
that complete without raising: whenever a flush returns with no error the
final state has the clear flag set and an empty measured-id list; when `_run`
raises, `receive`'s reset is skipped and the (mutated) state is returned
as-is. -/
theorem c9_amended (mapping : List (Nat × Nat))
    (send_result : Option (List (String × Nat))) (num_runs : Nat) (P : ℚ)
    (st st' : BackendState) (res : List (Nat × Nat))
    (h : receiveFlush mapping send_result num_runs P st = (st', res, none)) :
    st'.clear = true ∧ st'.measured_ids = [] := by
  unfold receiveFlush at h
  split at h
  · rename_i st2 res2 heq
    injection h with h1 h2
    subst h1
    exact ⟨rfl, rfl⟩
  · rename_i st2 res2 e heq
    injection h with h1 h2
    injection h2 with h2 h3
    exact Option.noConfusion h3

/-- C9 amended witness: a flush that completes without raising ends reset. -/
theorem c9_amended_witness :
    (⟨true, [], ["X 0"], [], [0]⟩ : BackendState).clear = true
    ∧ (⟨true, [], ["X 0"], [], [0]⟩ : BackendState).measured_ids = [] :=
  c9_amended [] (some []) 1024 0 ⟨false, [], ["X 0"], [], [0]⟩
    ⟨true, [], ["X 0"], [], [0]⟩ [] rfl


/-- C3 counterexample: with the histogram of the claim over 1024 shots and the
1:1 mapping onto positions 0,1,2, `_run` stores the reversed-bit-order table
`probsC3`, and `get_probabilities` for register order `[q2, q0, q1]` keys the
27/1024 outcome as `"110"`, not `"101"` as the claim states: `"101"` is absent
from the returned dictionary. -/
theorem c3_counterexample :
    (processCounts 1024 ((1 : ℚ) / 2) countsC3 0 "" []).1 = probsC3
    ∧ get_probabilities probsC3 mapC3 [⟨2⟩, ⟨0⟩, ⟨1⟩]
        = .ok [("111", ((396 : ℕ) : ℚ) / ((1024 : ℕ) : ℚ)),
               ("110", ((27 : ℕ) : ℚ) / ((1024 : ℕ) : ℚ)),
               ("000", ((601 : ℕ) : ℚ) / ((1024 : ℕ) : ℚ))]
    ∧ dictLookup [("111", ((396 : ℕ) : ℚ) / ((1024 : ℕ) : ℚ)),
               ("110", ((27 : ℕ) : ℚ) / ((1024 : ℕ) : ℚ)),
               ("000", ((601 : ℕ) : ℚ) / ((1024 : ℕ) : ℚ))] "101" = none :=
  ⟨rfl, rfl, rfl⟩

/-- C3 (amended): for register order `[q2, q0, q1]` the round trip returns
`{"111": 0.38671875, "110": 0.0263671875, "000": 0.5869140625}` — the middle
key is `"110"`; the claim's key `"101"` (with the same probability) is what
register order `[q2, q1, q0]` produces. -/
theorem c3_amended :
    (processCounts 1024 ((1 : ℚ) / 2) countsC3 0 "" []).1 = probsC3
    ∧ get_probabilities probsC3 mapC3 [⟨2⟩, ⟨0⟩, ⟨1⟩]
        = .ok [("111", ((396 : ℕ) : ℚ) / ((1024 : ℕ) : ℚ)),
               ("110", ((27 : ℕ) : ℚ) / ((1024 : ℕ) : ℚ)),
               ("000", ((601 : ℕ) : ℚ) / ((1024 : ℕ) : ℚ))]
    ∧ get_probabilities probsC3 mapC3 [⟨2⟩, ⟨1⟩, ⟨0⟩]
        = .ok [("111", ((396 : ℕ) : ℚ) / ((1024 : ℕ) : ℚ)),
               ("101", ((27 : ℕ) : ℚ) / ((1024 : ℕ) : ℚ)),
               ("000", ((601 : ℕ) : ℚ) / ((1024 : ℕ) : ℚ))]
    ∧ ((396 : ℕ) : ℚ) / ((1024 : ℕ) : ℚ) = 0.38671875
    ∧ ((27 : ℕ) : ℚ) / ((1024 : ℕ) : ℚ) = 0.0263671875
    ∧ ((601 : ℕ) : ℚ) / ((1024 : ℕ) : ℚ) = 0.5869140625 := by
  refine ⟨rfl, rfl, rfl, ?_, ?_, ?_⟩ <;> norm_num


lemma processCounts_measured_stable (num : ℕ) (P : ℚ) :
    ∀ (counts : List (String × ℕ)) (acc : ℚ) (m : String) (probs : List (String × ℚ)),
      m ≠ "" → (processCounts num P counts acc m probs).2 = m := by
  intro counts
  induction counts with
  | nil =>
    intro acc m probs hm
    rfl
  | cons sc rest ih =>
    intro acc m probs hm
    obtain ⟨s, c⟩ := sc
    simp only [processCounts]
    rw [if_neg]
    · exact ih _ _ _ hm
    · intro hcon
      exact hm hcon.2

lemma firstCrossing_measured (num : ℕ) (P : ℚ) :
    ∀ (counts : List (String × ℕ)) (acc : ℚ) (probs : List (String × ℚ))
      (crossing : String),
      (∀ sc ∈ counts, sc.1.data ≠ []) →
      firstCrossing num P counts acc = some crossing →
      (processCounts num P counts acc "" probs).2 = crossing := by
  intro counts
  induction counts with
  | nil =>
    intro acc probs crossing _ hc
    exact Option.noConfusion hc
  | cons sc rest ih =>
    intro acc probs crossing hne hc
    obtain ⟨s, c⟩ := sc
    simp only [firstCrossing] at hc
    simp only [processCounts]
    by_cases hcond : P ≤ acc + (c : ℚ) / (num : ℚ)
    · rw [if_pos hcond] at hc
      injection hc with hc
      subst hc
      rw [if_pos ⟨hcond, trivial⟩]
      apply processCounts_measured_stable
      intro hempty
      have hrev : s.data.reverse = [] := congrArg String.data hempty
      rw [List.reverse_eq_nil_iff] at hrev
      exact hne (s, c) (List.mem_cons_self _ _) hrev
    · rw [if_neg hcond] at hc
      rw [if_neg (fun hcon => hcond hcon.1)]
      exact ih _ _ _ (fun sc hmem => hne sc (List.mem_cons_of_mem _ hmem)) hc

lemma registerResults_map (mapping : List (Nat × Nat)) (measured : String) :
    ∀ (ids : List Nat) (results : List (Nat × Nat)),
      registerResults mapping measured ids = .ok results →
      results = ids.map (fun id => (id, bitAt mapping measured id)) := by
  intro ids
  induction ids with
  | nil =>
    intro results h
    simp only [registerResults] at h
    injection h with h
    subst h
    rfl
  | cons id rest ih =>
    intro results h
    simp only [registerResults] at h
    cases hl : _logical_to_physical mapping id with
    | error e =>
      rw [hl] at h
      exact Except.noConfusion h
    | ok location =>
      rw [hl] at h
      dsimp only at h
      cases hg : measured.data.get? location with
      | none =>
        rw [hg] at h
        exact Except.noConfusion h
      | some c =>
        rw [hg] at h
        dsimp only at h
        cases hd : charToInt c with
        | error e =>
          rw [hd] at h
          exact Except.noConfusion h
        | ok bit =>
          rw [hd] at h
          dsimp only at h
          cases hr : registerResults mapping measured rest with
          | error e =>
            rw [hr] at h
            exact Except.noConfusion h
          | ok tail =>
            rw [hr] at h
            dsimp only at h
            injection h with h
            subst h
            rw [List.map_cons]
            congr 1
            · unfold _logical_to_physical at hl
              cases hml : mapLookup mapping id with
              | none =>
                rw [hml] at hl
                exact Except.noConfusion hl
              | some loc =>
                rw [hml] at hl
                dsimp only at hl
                injection hl with hl
                subst hl
                unfold charToInt at hd
                split at hd
                · injection hd with hd
                  subst hd
                  rw [List.get?_eq_getElem?] at hg
                  simp [bitAt, hml, hg]
                · exact Except.noConfusion hd
            · exact ih tail hr

/-- C4: outcome sampling is a deterministic function of the decoded
histogram's insertion order and the single uniform draw `P` (the model's one
random parameter): the measured outcome produced by the `_run` sampling loop
is exactly the (bit-reversed) first state, in insertion order, whose
cumulative mass `count / num_runs` reaches or exceeds `P`; and the
registration loop delivers to the measurement-result sink exactly one
`(logical id, bit)` pair per measured id, the bit being that outcome's
character at the id's resolved physical location. -/
theorem c4_outcome_sampling (num_runs : ℕ) (P : ℚ) (counts : List (String × ℕ))
    (probs : List (String × ℚ)) (crossing : String) (mapping : List (Nat × Nat))
    (ids : List Nat) (results : List (Nat × Nat))
    (hne : ∀ sc ∈ counts, sc.1.data ≠ [])
    (hcross : firstCrossing num_runs P counts 0 = some crossing)
    (hreg : registerResults mapping crossing ids = .ok results) :
    (processCounts num_runs P counts 0 "" probs).2 = crossing
    ∧ results = ids.map (fun id => (id, bitAt mapping crossing id)) :=
  ⟨firstCrossing_measured num_runs P counts 0 probs crossing hne hcross,
   registerResults_map mapping crossing ids results hreg⟩

/-- C4 witness: histogram `[("01", 512), ("10", 512)]` over 1024 shots with
draw `3/4` selects the second state (cumulative mass 1), reported reversed as
`"01"`; logical id 7 at physical position 0 receives bit `0`. -/
theorem c4_outcome_sampling_witness :
    (processCounts 1024 ((3 : ℚ) / 4) [("01", 512), ("10", 512)] 0 "" []).2 = "01"
    ∧ [(7, 0)] = [7].map (fun id => (id, bitAt [(7, 0)] "01" id)) :=
  c4_outcome_sampling 1024 ((3 : ℚ) / 4) [("01", 512), ("10", 512)] [] "01"
    [(7, 0)] [7] [(7, 0)] (by decide) (by norm_num [firstCrossing]) rfl

lemma dictLookup_cons_of_ne {β : Type} (p : String × β) (d : List (String × β))
    (k : String) (h : ¬p.1 = k) :
    dictLookup (p :: d) k = dictLookup d k := by
  unfold dictLookup
  rw [List.find?_cons_of_neg]
  simp [h]

lemma dictLookup_cons_self {β : Type} (p : String × β) (d : List (String × β))
    (k : String) (h : p.1 = k) :
    dictLookup (p :: d) k = some p.2 := by
  unfold dictLookup
  rw [List.find?_cons_of_pos]
  · rfl
  · simp [h]

lemma dictInsert_cons {β : Type} (k₁ k : String) (w v : β) (d : List (String × β))
    (hne : ¬k₁ = k) :
    dictInsert ((k₁, w) :: d) k v = (k₁, w) :: dictInsert d k v := by
  by_cases hany : d.any (fun p => decide (p.1 = k)) = true
  · simp [dictInsert, hany, hne]
  · simp [dictInsert, hany, hne]

lemma map_replace_eq_self {β : Type} (k : String) (v : β) (d : List (String × β))
    (h : ∀ p ∈ d, ¬p.1 = k) :
    d.map (fun p => if p.1 = k then (k, v) else p) = d := by
  conv_rhs => rw [← List.map_id d]
  apply List.map_congr_left
  intro p hp
  rw [if_neg (h p hp)]
  rfl

lemma dictLookup_map_replace {β : Type} (k : String) (v : β) (k' : String)
    (hne : ¬k' = k) (d : List (String × β)) :
    dictLookup (d.map (fun p => if p.1 = k then (k, v) else p)) k' = dictLookup d k' := by
  induction d with
  | nil => rfl
  | cons p rest ih =>
    rw [List.map_cons]
    by_cases hpk : p.1 = k
    · rw [if_pos hpk]
      rw [dictLookup_cons_of_ne _ _ _ (fun hc => hne hc.symm)]
      rw [dictLookup_cons_of_ne _ _ _ (fun hc => hne (hc.symm.trans hpk))]
      exact ih
    · rw [if_neg hpk]
      by_cases hpk' : p.1 = k'
      · rw [dictLookup_cons_self _ _ _ hpk', dictLookup_cons_self _ _ _ hpk']
      · rw [dictLookup_cons_of_ne _ _ _ hpk', dictLookup_cons_of_ne _ _ _ hpk']
        exact ih

lemma dictLookup_dictInsert {β : Type} (k : String) (v : β) (k' : String) :
    ∀ d : List (String × β),
      dictLookup (dictInsert d k v) k' = if k' = k then some v else dictLookup d k' := by
  intro d
  induction d with
  | nil =>
    show dictLookup [(k, v)] k' = _
    by_cases hk : k' = k
    · rw [if_pos hk, dictLookup_cons_self _ _ _ hk.symm]
    · rw [if_neg hk, dictLookup_cons_of_ne _ _ _ (fun hc => hk hc.symm)]
  | cons p rest ih =>
    obtain ⟨k₁, w⟩ := p
    by_cases hk1 : k₁ = k
    · subst hk1
      have hins : dictInsert ((k₁, w) :: rest) k₁ v
          = (k₁, v) :: rest.map (fun p => if p.1 = k₁ then (k₁, v) else p) := by
        unfold dictInsert
        rw [if_pos]
        · rw [List.map_cons, if_pos rfl]
        · simp
      rw [hins]
      by_cases hk' : k' = k₁
      · rw [if_pos hk', dictLookup_cons_self _ _ _ hk'.symm]
      · rw [if_neg hk', dictLookup_cons_of_ne _ _ _ (fun hc => hk' hc.symm)]
        rw [dictLookup_map_replace _ _ _ hk']
        rw [dictLookup_cons_of_ne _ _ _ (fun hc => hk' hc.symm)]
    · rw [dictInsert_cons _ _ _ _ _ hk1]
      by_cases hk' : k' = k₁
      · have hne : ¬k' = k := fun hc => hk1 (hk' ▸ hc)
        rw [if_neg hne]
        rw [dictLookup_cons_self _ _ _ hk'.symm, dictLookup_cons_self _ _ _ hk'.symm]
      · rw [dictLookup_cons_of_ne _ _ _ (fun hc => hk' hc.symm)]
        rw [ih]
        by_cases hk : k' = k
        · rw [if_pos hk, if_pos hk]
        · rw [if_neg hk, if_neg hk]
          rw [dictLookup_cons_of_ne _ _ _ (fun hc => hk' hc.symm)]

lemma dictInsert_keys_nodup {β : Type} (d : List (String × β)) (k : String) (v : β)
    (h : (d.map (fun p => p.1)).Nodup) :
    ((dictInsert d k v).map (fun p => p.1)).Nodup := by
  by_cases hany : d.any (fun p => decide (p.1 = k)) = true
  · have hkeys : ((d.map (fun p => if p.1 = k then (k, v) else p)).map (fun p => p.1))
        = d.map (fun p => p.1) := by
      rw [List.map_map]
      apply List.map_congr_left
      intro p hp
      by_cases hpk : p.1 = k
      · simp [hpk]
      · simp [hpk]
    simp only [dictInsert, hany, if_true]
    rw [hkeys]
    exact h
  · simp only [dictInsert, hany, if_false, Bool.false_eq_true]
    rw [List.map_append]
    refine h.append (List.nodup_singleton k) ?_
    intro a ha hb
    simp only [List.map_cons, List.map_nil, List.mem_singleton] at hb
    subst hb
    rw [List.mem_map] at ha
    obtain ⟨p, hp, hpk⟩ := ha
    apply hany
    rw [List.any_eq_true]
    exact ⟨p, hp, by simp [hpk]⟩

lemma dictInsert_nonneg (d : List (String × ℚ)) (k : String) (v : ℚ)
    (hd : ∀ p ∈ d, 0 ≤ p.2) (hv : 0 ≤ v) :
    ∀ p ∈ dictInsert d k v, 0 ≤ p.2 := by
  intro p hp
  unfold dictInsert at hp
  split at hp
  · rw [List.mem_map] at hp
    obtain ⟨q, hq, hqe⟩ := hp
    by_cases hqk : q.1 = k
    · rw [if_pos hqk] at hqe
      rw [← hqe]
      exact hv
    · rw [if_neg hqk] at hqe
      rw [← hqe]
      exact hd q hq
  · rcases List.mem_append.mp hp with hmem | hmem
    · exact hd p hmem
    · rw [List.mem_singleton] at hmem
      subst hmem
      exact hv

lemma valuesSum_dictInsert_le (k : String) (v : ℚ) :
    ∀ d : List (String × ℚ), (d.map (fun p => p.1)).Nodup →
      (∀ p ∈ d, 0 ≤ p.2) → 0 ≤ v →
      valuesSum (dictInsert d k v) ≤ valuesSum d + v := by
  intro d
  induction d with
  | nil =>
    intro _ _ _
    show valuesSum [(k, v)] ≤ valuesSum [] + v
    simp [valuesSum]
  | cons p rest ih =>
    intro hnodup hnn hv
    obtain ⟨k₁, w⟩ := p
    rw [List.map_cons, List.nodup_cons] at hnodup
    have hw : (0 : ℚ) ≤ w := hnn (k₁, w) (List.mem_cons_self _ _)
    have hrest : ∀ p ∈ rest, (0 : ℚ) ≤ p.2 :=
      fun p hp => hnn p (List.mem_cons_of_mem _ hp)
    by_cases hk1 : k₁ = k
    · subst hk1
      have hins : dictInsert ((k₁, w) :: rest) k₁ v
          = (k₁, v) :: rest.map (fun p => if p.1 = k₁ then (k₁, v) else p) := by
        unfold dictInsert
        rw [if_pos]
        · rw [List.map_cons, if_pos rfl]
        · simp
      rw [hins]
      rw [map_replace_eq_self _ _ _ ?hfresh]
      case hfresh =>
        intro p hp hpk
        exact hnodup.1 (hpk ▸ List.mem_map_of_mem (fun p => p.1) hp)
      show v + valuesSum rest ≤ (w + valuesSum rest) + v
      linarith
    · rw [dictInsert_cons _ _ _ _ _ hk1]
      show w + valuesSum (dictInsert rest k v) ≤ (w + valuesSum rest) + v
      have := ih hnodup.2 hrest hv
      linarith

lemma foldl_dictInsert_props (pairs : List (String × ℚ)) :
    ∀ acc : List (String × ℚ), (acc.map (fun p => p.1)).Nodup →
      (∀ p ∈ acc, 0 ≤ p.2) → (∀ p ∈ pairs, 0 ≤ p.2) →
      valuesSum (pairs.foldl (fun d p => dictInsert d p.1 p.2) acc)
          ≤ valuesSum acc + (pairs.map (fun p => p.2)).sum := by
  induction pairs with
  | nil =>
    intro acc _ _ _
    simp [valuesSum]
  | cons p ps ih =>
    intro acc h1 h2 h3
    have hv : 0 ≤ p.2 := h3 p (List.mem_cons_self _ _)
    have hrest : ∀ q ∈ ps, 0 ≤ q.2 := fun q hq => h3 q (List.mem_cons_of_mem _ hq)
    rw [List.foldl_cons]
    calc valuesSum (ps.foldl (fun d p => dictInsert d p.1 p.2) (dictInsert acc p.1 p.2))
        ≤ valuesSum (dictInsert acc p.1 p.2) + (ps.map (fun p => p.2)).sum :=
          ih (dictInsert acc p.1 p.2) (dictInsert_keys_nodup _ _ _ h1)
            (dictInsert_nonneg _ _ _ h2 hv) hrest
      _ ≤ (valuesSum acc + p.2) + (ps.map (fun p => p.2)).sum := by
          have := valuesSum_dictInsert_le p.1 p.2 acc h1 h2 hv
          linarith
      _ = valuesSum acc + ((p :: ps).map (fun p => p.2)).sum := by
          rw [List.map_cons, List.sum_cons]
          ring

lemma dictInsert_fresh {β : Type} (d : List (String × β)) (k : String) (v : β)
    (h : ∀ p ∈ d, ¬p.1 = k) :
    dictInsert d k v = d ++ [(k, v)] := by
  unfold dictInsert
  rw [if_neg]
  intro hany
  rw [List.any_eq_true] at hany
  obtain ⟨p, hp, hpk⟩ := hany
  rw [decide_eq_true_eq] at hpk
  exact h p hp hpk

lemma foldl_dictInsert_fresh {β : Type} (pairs : List (String × β)) :
    ∀ acc : List (String × β), (∀ p ∈ pairs, ∀ q ∈ acc, ¬q.1 = p.1) →
      (pairs.map (fun p => p.1)).Nodup →
      pairs.foldl (fun d p => dictInsert d p.1 p.2) acc = acc ++ pairs := by
  induction pairs with
  | nil =>
    intro acc _ _
    simp
  | cons p ps ih =>
    intro acc hfresh hnodup
    rw [List.map_cons, List.nodup_cons] at hnodup
    rw [List.foldl_cons]
    rw [dictInsert_fresh _ _ _ (fun q hq => hfresh p (List.mem_cons_self _ _) q hq)]
    rw [ih (acc ++ [(p.1, p.2)]) ?_ hnodup.2]
    · simp
    · intro q hq r hr
      rcases List.mem_append.mp hr with hmem | hmem
      · exact hfresh q (List.mem_cons_of_mem _ hq) r hmem
      · rw [List.mem_singleton] at hmem
        subst hmem
        intro hpq
        exact hnodup.1 (hpq ▸ List.mem_map_of_mem (fun p => p.1) hq)

lemma option_some_or {α : Type} (a : α) (o : Option α) : (some a).or o = some a := rfl

lemma foldl_dictInsert_lookup {β : Type} (k : String) (pairs : List (String × β)) :
    ∀ acc : List (String × β),
      dictLookup (pairs.foldl (fun d p => dictInsert d p.1 p.2) acc) k
        = ((pairs.reverse.find? (fun p => decide (p.1 = k))).map (fun p => p.2)).or
            (dictLookup acc k) := by
  induction pairs with
  | nil =>
    intro acc
    simp [Option.none_or]
  | cons p ps ih =>
    intro acc
    rw [List.foldl_cons, ih, List.reverse_cons, List.find?_append]
    cases hf : ps.reverse.find? (fun p => decide (p.1 = k)) with
    | some q => rfl
    | none =>
      rw [dictLookup_dictInsert]
      by_cases hk : k = p.1
      · rw [if_pos hk]
        have hfind : [p].find? (fun p => decide (p.1 = k)) = some p :=
          List.find?_cons_of_pos _ (by simp [hk])
        simp [hfind, option_some_or]
      · rw [if_neg hk]
        have hfind : [p].find? (fun p => decide (p.1 = k)) = none := by
          rw [List.find?_cons_of_neg]
          · rfl
          · simp
            exact fun hc => hk hc.symm
        simp [hfind]


lemma processCounts_probs (num : ℕ) (P : ℚ) :
    ∀ (counts : List (String × ℕ)) (acc : ℚ) (m : String) (probs : List (String × ℚ)),
      (processCounts num P counts acc m probs).1
        = counts.foldl
            (fun d sc => dictInsert d (String.mk sc.1.data.reverse) ((sc.2 : ℚ) / (num : ℚ)))
            probs := by
  intro counts
  induction counts with
  | nil =>
    intro acc m probs
    rfl
  | cons sc rest ih =>
    intro acc m probs
    obtain ⟨s, c⟩ := sc
    simp only [processCounts, List.foldl_cons]
    exact ih _ _ _

lemma buildDict_ok (mapping : List (Nat × Nat)) (qureg : List Qubit) :
    ∀ (probs acc r : List (String × ℚ)),
      buildDict mapping qureg acc probs = .ok r →
      ∃ pairs, projections mapping qureg probs = .ok pairs
        ∧ r = pairs.foldl (fun d p => dictInsert d p.1 p.2) acc := by
  intro probs
  induction probs with
  | nil =>
    intro acc r h
    simp only [buildDict] at h
    injection h with h
    subst h
    exact ⟨[], rfl, rfl⟩
  | cons sp rest ih =>
    intro acc r h
    obtain ⟨state, prob⟩ := sp
    simp only [buildDict] at h
    cases hp : projectState mapping qureg state with
    | error e =>
      rw [hp] at h
      exact Except.noConfusion h
    | ok key =>
      rw [hp] at h
      dsimp only at h
      obtain ⟨pairs, hpr, hr⟩ := ih _ _ h
      refine ⟨(key, prob) :: pairs, ?_, ?_⟩
      · simp only [projections, hp, hpr]
      · rw [List.foldl_cons]
        exact hr

lemma projections_values (mapping : List (Nat × Nat)) (qureg : List Qubit) :
    ∀ (probs pairs : List (String × ℚ)),
      projections mapping qureg probs = .ok pairs →
      pairs.map (fun p => p.2) = probs.map (fun p => p.2) := by
  intro probs
  induction probs with
  | nil =>
    intro pairs h
    simp only [projections] at h
    injection h with h
    subst h
    rfl
  | cons sp rest ih =>
    intro pairs h
    obtain ⟨state, prob⟩ := sp
    simp only [projections] at h
    cases hp : projectState mapping qureg state with
    | error e =>
      rw [hp] at h
      exact Except.noConfusion h
    | ok key =>
      rw [hp] at h
      dsimp only at h
      cases hpr : projections mapping qureg rest with
      | error e =>
        rw [hpr] at h
        exact Except.noConfusion h
      | ok tail =>
        rw [hpr] at h
        dsimp only at h
        injection h with h
        subst h
        simp only [List.map_cons]
        rw [ih tail hpr]

lemma sum_map_div (num : ℕ) :
    ∀ counts : List (String × ℕ),
      (counts.map (fun sc => ((sc.2 : ℕ) : ℚ) / (num : ℚ))).sum
        = (((counts.map (fun sc => sc.2)).sum : ℕ) : ℚ) / (num : ℚ) := by
  intro counts
  induction counts with
  | nil => simp
  | cons sc rest ih =>
    simp only [List.map_cons, List.sum_cons, ih]
    push_cast
    ring

lemma rev_key_injective :
    Function.Injective (fun s : String => String.mk s.data.reverse) := by
  intro a b h
  simp only at h
  have hd : a.data.reverse = b.data.reverse := congrArg String.data h
  have hdata : a.data = b.data := List.reverse_injective hd
  exact String.ext hdata

/-- C6: after a run whose decoded histogram has pairwise-distinct states and
counts summing to the configured shot count, the probability dictionary
returned by `get_probabilities` for any register it accepts sums to at most 1;
and when the stored states project onto the register pairwise-distinctly (as
the full measured register does on well-formed run data), the probabilities
sum to exactly 1 — in particular within the claimed `1e-9` tolerance. -/
theorem c6_probability_sums (num_runs : ℕ) (P : ℚ) (counts : List (String × ℕ))
    (mapping : List (Nat × Nat)) (qureg : List Qubit) (r pairs : List (String × ℚ))
    (hpos : 0 < num_runs)
    (hnodup : (counts.map (fun sc => sc.1)).Nodup)
    (hsum : (counts.map (fun sc => sc.2)).sum = num_runs)
    (hok : get_probabilities (processCounts num_runs P counts 0 "" []).1 mapping qureg
        = .ok r)
    (hproj : projections mapping qureg (processCounts num_runs P counts 0 "" []).1
        = .ok pairs) :
    valuesSum r ≤ 1 ∧ ((pairs.map (fun p => p.1)).Nodup → valuesSum r = 1) := by
  have hF : (processCounts num_runs P counts 0 "" []).1 = counts.map
      (fun sc => (String.mk sc.1.data.reverse, ((sc.2 : ℕ) : ℚ) / ((num_runs : ℕ) : ℚ))) := by
    rw [processCounts_probs]
    rw [← List.foldl_map
        (fun sc : String × ℕ =>
          (String.mk sc.1.data.reverse, ((sc.2 : ℕ) : ℚ) / ((num_runs : ℕ) : ℚ)))
        (fun d p => dictInsert d p.1 p.2)]
    rw [foldl_dictInsert_fresh]
    · rw [List.nil_append]
    · intro p _ q hq
      exact absurd hq (List.not_mem_nil q)
    · rw [List.map_map]
      have hcomp : ((fun p : String × ℚ => p.1) ∘
          (fun sc : String × ℕ =>
            (String.mk sc.1.data.reverse, ((sc.2 : ℕ) : ℚ) / ((num_runs : ℕ) : ℚ))))
          = (fun s : String => String.mk s.data.reverse) ∘ (fun sc : String × ℕ => sc.1) := rfl
      rw [hcomp, ← List.map_map]
      exact hnodup.map rev_key_injective
  have hbuild : buildDict mapping qureg [] (processCounts num_runs P counts 0 "" []).1
      = .ok r := by
    unfold get_probabilities at hok
    split at hok
    · exact Except.noConfusion hok
    · exact hok
  obtain ⟨pairs', hpr', hr⟩ := buildDict_ok mapping qureg _ [] r hbuild
  rw [hproj] at hpr'
  injection hpr' with hpr'
  subst hpr'
  have hvals : pairs.map (fun p => p.2)
      = counts.map (fun sc => ((sc.2 : ℕ) : ℚ) / ((num_runs : ℕ) : ℚ)) := by
    rw [projections_values mapping qureg _ pairs hproj, hF, List.map_map]
    rfl
  have hnn : ∀ p ∈ pairs, 0 ≤ p.2 := by
    intro p hp
    have hmem : p.2 ∈ pairs.map (fun p => p.2) := List.mem_map_of_mem _ hp
    rw [hvals, List.mem_map] at hmem
    obtain ⟨sc, _, hv⟩ := hmem
    rw [← hv]
    positivity
  have hnum : ((num_runs : ℕ) : ℚ) ≠ 0 :=
    Nat.cast_ne_zero.mpr (Nat.pos_iff_ne_zero.mp hpos)
  have hsum1 : (pairs.map (fun p => p.2)).sum = 1 := by
    rw [hvals, sum_map_div, hsum, div_self hnum]
  constructor
  · rw [hr]
    have hle := foldl_dictInsert_props pairs []
      (by simp) (by intro p hp; exact absurd hp (List.not_mem_nil p)) hnn
    calc valuesSum (pairs.foldl (fun d p => dictInsert d p.1 p.2) [])
        ≤ valuesSum [] + (pairs.map (fun p => p.2)).sum := hle
      _ = 1 := by
          rw [hsum1]
          simp [valuesSum]
  · intro hkeys
    rw [hr, foldl_dictInsert_fresh pairs []
      (by intro p _ q hq; exact absurd hq (List.not_mem_nil q)) hkeys]
    rw [List.nil_append]
    exact hsum1

/-- C6 witness: histogram `[("01", 512), ("11", 512)]` over 1024 shots,
identity mapping, full register `[q0, q1]`: the two returned probabilities
sum to exactly 1. -/
theorem c6_probability_sums_witness :
    valuesSum [("10", ((512 : ℕ) : ℚ) / ((1024 : ℕ) : ℚ)),
               ("11", ((512 : ℕ) : ℚ) / ((1024 : ℕ) : ℚ))] ≤ 1
    ∧ ((([("10", ((512 : ℕ) : ℚ) / ((1024 : ℕ) : ℚ)),
          ("11", ((512 : ℕ) : ℚ) / ((1024 : ℕ) : ℚ))].map (fun p => p.1)).Nodup) →
        valuesSum [("10", ((512 : ℕ) : ℚ) / ((1024 : ℕ) : ℚ)),
                   ("11", ((512 : ℕ) : ℚ) / ((1024 : ℕ) : ℚ))] = 1) :=
  c6_probability_sums 1024 0 [("01", 512), ("11", 512)] [(0, 0), (1, 1)]
    [⟨0⟩, ⟨1⟩]
    [("10", ((512 : ℕ) : ℚ) / ((1024 : ℕ) : ℚ)),
     ("11", ((512 : ℕ) : ℚ) / ((1024 : ℕ) : ℚ))]
    [("10", ((512 : ℕ) : ℚ) / ((1024 : ℕ) : ℚ)),
     ("11", ((512 : ℕ) : ℚ) / ((1024 : ℕ) : ℚ))]
    (by decide) (by decide) (by decide) rfl rfl

/-- C10: when `get_probabilities` succeeds, the value stored under any output
bitstring is exactly the probability of the *last* stored state (in the
table's insertion order) that projects onto that bitstring — earlier states
projecting to the same key are overwritten, not summed, so the result is not
a marginal distribution. -/
theorem c10_collision_overwrites (probs : List (String × ℚ))
    (mapping : List (Nat × Nat)) (qureg : List Qubit) (r pairs : List (String × ℚ))
    (hok : get_probabilities probs mapping qureg = .ok r)
    (hproj : projections mapping qureg probs = .ok pairs) :
    ∀ k, dictLookup r k
      = (pairs.reverse.find? (fun p => decide (p.1 = k))).map (fun p => p.2) := by
  unfold get_probabilities at hok
  split at hok
  · exact Except.noConfusion hok
  · obtain ⟨pairs', hpr', hr⟩ := buildDict_ok mapping qureg probs [] r hok
    rw [hproj] at hpr'
    injection hpr' with hpr'
    subst hpr'
    intro k
    rw [hr, foldl_dictInsert_lookup]
    cases hfind : pairs.reverse.find? (fun p => decide (p.1 = k)) with
    | some q => rfl
    | none =>
      simp [dictLookup]

/-- C10 witness: states `"01"` and `"00"` both project onto position 0 as
`"0"`; the returned probability for `"0"` is the last state's `3/4`, not the
marginal `1`. -/
theorem c10_collision_overwrites_witness :
    dictLookup [("0", (3 : ℚ) / 4)] "0"
      = (([("0", (1 : ℚ) / 4), ("0", (3 : ℚ) / 4)].reverse.find?
          (fun p => decide (p.1 = "0"))).map (fun p => p.2)) :=
  c10_collision_overwrites [("01", (1 : ℚ) / 4), ("00", (3 : ℚ) / 4)] [(0, 0)] [⟨0⟩]
    [("0", (3 : ℚ) / 4)] [("0", (1 : ℚ) / 4), ("0", (3 : ℚ) / 4)] rfl rfl "0"

end Rigetti
